import Mathlib

/-!
Verification of the editing core of `editor.py` (aj-editor).

The program keeps a list of text lines, a logical cursor, a single-slot
clipboard, snapshot undo/redo stacks and a modified flag, and processes one
abstract command per iteration of its main loop.  Lines are modelled as
`List Char`, the buffer as `List (List Char)`.  Python list indexing that can
raise `IndexError` is modelled by functions returning `Option`: `none` means
the program raises and the session dies.
-/

namespace AjEditor

abbrev Line := List Char
abbrev Buffer := List Line

/-- One editor state: the local variables of `editor()` that the key handlers
read and write (`lines`, `cursor_y`, `cursor_x`, `screen_y_offset`,
`clipboard_line`, `undo_stack`, `redo_stack`, `modified`). -/
structure EditorState where
  lines : Buffer
  cursor_y : Nat
  cursor_x : Nat
  screen_y_offset : Int
  clipboard_line : Line
  undo_stack : List Buffer
  redo_stack : List Buffer
  modified : Bool
deriving DecidableEq, Repr

/-- The abstract command surface decoded from key / mouse events
(`KEY_UP` .. printable characters).  Prompted strings (search term,
replacement, goto number) travel with the command. -/
inductive Cmd where
  | moveUp | moveDown | moveLeft | moveRight
  | backspace | newline | tab
  | insertChar (c : Char)
  | cut | paste | undo | redo
  | whereIs (term : Line)
  | gotoLine (g : Int)
  | replaceCmd (f r : Line)
  | mouse (mx my th : Int)
deriving DecidableEq, Repr

/-- Python `lines.insert(i, x)`: clamps `i` into `[0, len]` (append when past
the end). -/
def pyInsertAt (l : List α) (i : Nat) (a : α) : List α :=
  l.take i ++ a :: l.drop i

/-- Python `lines.pop(i)` result list (callers guard `i < len`, where Python
would otherwise raise). -/
def pyPop (l : List α) (i : Nat) : List α :=
  l.take i ++ l.drop (i + 1)

/-- Python `pat in s` substring test. -/
def containsSub (s pat : Line) : Bool :=
  s.tails.any (fun t => pat.isPrefixOf t)

/-- Python `s.find(pat)` restricted to the found case: index of the first
occurrence (callers use it only after a `pat in s` check). -/
def pyFindIdx (s pat : Line) : Nat :=
  ((List.range (s.length + 1)).find? (fun i => pat.isPrefixOf (s.drop i))).getD 0

/-- Fuel-driven core of Python `s.replace(pat, rep)` for a non-empty `pat`:
replace leftmost non-overlapping occurrences.  `fuel ≥ s.length` is enough
fuel because every step consumes at least one character of `s`. -/
def replaceFuel (pat rep : Line) : Nat → Line → Line
  | 0, s => s
  | _ + 1, [] => []
  | fuel + 1, c :: rest =>
    if pat.isPrefixOf (c :: rest) then
      rep ++ replaceFuel pat rep fuel (rest.drop (pat.length - 1))
    else
      c :: replaceFuel pat rep fuel rest

/-- Python `s.replace(pat, rep)`.  An empty pattern inserts `rep` before every
character and at the end, as CPython does. -/
def pyReplace (s pat rep : Line) : Line :=
  if pat.isEmpty then rep ++ (s.map (fun ch => ch :: rep)).flatten
  else replaceFuel pat rep s.length s

/-- The Ctrl-\ loop body: rewrite every line containing the search term and
count one per such line (`count += 1` per line, not per occurrence). -/
def replaceAllLoop (ls : Buffer) (f r : Line) : Buffer × Nat :=
  match ls with
  | [] => ([], 0)
  | l :: rest =>
    let p := replaceAllLoop rest f r
    if containsSub l f then (pyReplace l f r :: p.1, p.2 + 1) else (l :: p.1, p.2)

/-- The push of `save_undo()`: append a deep copy of `lines`, evict the oldest entry when
the stack exceeds 100, clear the redo stack.  The push itself: -/
def pushCap (us : List Buffer) (l : Buffer) : List Buffer :=
  if 100 < (us ++ [l]).length then (us ++ [l]).drop 1 else us ++ [l]

/-- The whole of `save_undo()` as a state transformer. -/
def save_undo (s : EditorState) : EditorState :=
  { s with undo_stack := pushCap s.undo_stack s.lines, redo_stack := [] }

/-- The Ctrl-Z handler: no-op on an empty undo stack, otherwise push the
current buffer on the redo stack and pop the undo stack into `lines`. -/
def undoStep (s : EditorState) : EditorState :=
  match s.undo_stack.getLast? with
  | none => s
  | some prev =>
    { s with lines := prev, undo_stack := s.undo_stack.dropLast,
             redo_stack := s.redo_stack ++ [s.lines] }

/-- The Ctrl-Y handler, symmetric to `undoStep`. -/
def redoStep (s : EditorState) : EditorState :=
  match s.redo_stack.getLast? with
  | none => s
  | some nxt =>
    { s with lines := nxt, redo_stack := s.redo_stack.dropLast,
             undo_stack := s.undo_stack ++ [s.lines] }

/-- Iterated Ctrl-Z. -/
def undoN : Nat → EditorState → EditorState
  | 0, s => s
  | n + 1, s => undoStep (undoN n s)

/-- One key-handler step of the main loop.  `none` models an uncaught Python
`IndexError` (out-of-range `lines[...]` access), which kills the session. -/
def applyCmd : Cmd → EditorState → Option EditorState
  | .moveUp, s =>
    let y := s.cursor_y - 1
    match s.lines[y]? with
    | none => none
    | some l => some { s with cursor_y := y, cursor_x := min s.cursor_x l.length }
  | .moveDown, s =>
    let y := min (s.lines.length - 1) (s.cursor_y + 1)
    match s.lines[y]? with
    | none => none
    | some l => some { s with cursor_y := y, cursor_x := min s.cursor_x l.length }
  | .moveLeft, s =>
    if 0 < s.cursor_x then some { s with cursor_x := s.cursor_x - 1 }
    else if 0 < s.cursor_y then
      match s.lines[s.cursor_y - 1]? with
      | none => none
      | some l => some { s with cursor_y := s.cursor_y - 1, cursor_x := l.length }
    else some s
  | .moveRight, s =>
    match s.lines[s.cursor_y]? with
    | none => none
    | some l =>
      if s.cursor_x < l.length then some { s with cursor_x := s.cursor_x + 1 }
      else if s.cursor_y < s.lines.length - 1 then
        some { s with cursor_y := s.cursor_y + 1, cursor_x := 0 }
      else some s
  | .backspace, s =>
    let s1 := { save_undo s with modified := true }
    if 0 < s1.cursor_x then
      match s1.lines[s1.cursor_y]? with
      | none => none
      | some l =>
        some { s1 with
          lines := s1.lines.set s1.cursor_y (l.take (s1.cursor_x - 1) ++ l.drop s1.cursor_x),
          cursor_x := s1.cursor_x - 1 }
    else if 0 < s1.cursor_y then
      match s1.lines[s1.cursor_y - 1]?, s1.lines[s1.cursor_y]? with
      | some prev, some cur =>
        some { s1 with
          lines := pyPop (s1.lines.set (s1.cursor_y - 1) (prev ++ cur)) s1.cursor_y,
          cursor_y := s1.cursor_y - 1,
          cursor_x := prev.length }
      | _, _ => none
    else some s1
  | .newline, s =>
    let s1 := { save_undo s with modified := true }
    match s1.lines[s1.cursor_y]? with
    | none => none
    | some l =>
      some { s1 with
        lines := pyInsertAt (s1.lines.set s1.cursor_y (l.take s1.cursor_x))
                   (s1.cursor_y + 1) (l.drop s1.cursor_x),
        cursor_y := s1.cursor_y + 1,
        cursor_x := 0 }
  | .tab, s =>
    let s1 := { save_undo s with modified := true }
    match s1.lines[s1.cursor_y]? with
    | none => none
    | some l =>
      some { s1 with
        lines := s1.lines.set s1.cursor_y
          (l.take s1.cursor_x ++ [' ', ' ', ' ', ' '] ++ l.drop s1.cursor_x),
        cursor_x := s1.cursor_x + 4 }
  | .insertChar c, s =>
    let s1 := { save_undo s with modified := true }
    match s1.lines[s1.cursor_y]? with
    | none => none
    | some l =>
      some { s1 with
        lines := s1.lines.set s1.cursor_y (l.take s1.cursor_x ++ c :: l.drop s1.cursor_x),
        cursor_x := s1.cursor_x + 1 }
  | .cut, s =>
    let s1 := save_undo s
    match s1.lines[s1.cursor_y]? with
    | none => none
    | some l =>
      let rest := pyPop s1.lines s1.cursor_y
      some { s1 with
        clipboard_line := l,
        lines := rest,
        cursor_y := if rest.length ≤ s1.cursor_y then rest.length - 1 else s1.cursor_y,
        cursor_x := 0,
        modified := true }
  | .paste, s =>
    let s1 := save_undo s
    some { s1 with
      lines := pyInsertAt s1.lines s1.cursor_y s1.clipboard_line,
      modified := true }
  | .undo, s => some (undoStep s)
  | .redo, s => some (redoStep s)
  | .whereIs term, s =>
    match (List.range' s.cursor_y (s.lines.length - s.cursor_y)).find?
        (fun i => containsSub (s.lines.getD i []) term) with
    | none => some s
    | some i => some { s with cursor_y := i, cursor_x := pyFindIdx (s.lines.getD i []) term }
  | .gotoLine g, s =>
    if 0 ≤ g ∧ g < s.lines.length then
      let y := g.toNat
      some { s with
        cursor_y := y,
        cursor_x := min s.cursor_x (s.lines.getD y []).length }
    else some s
  | .replaceCmd f r, s =>
    let s1 := save_undo s
    some { s1 with lines := (replaceAllLoop s1.lines f r).1, modified := true }
  | .mouse mx my th, s =>
    if 1 ≤ my ∧ my < th + 1 then
      if s.lines.length = 0 then
        -- the IndexError inside the try/except leaves only `cursor_y = 0`
        some { s with cursor_y := 0 }
      else
        let y : Nat := (max 0 (min (s.screen_y_offset + (my - 1))
          ((s.lines.length : Int) - 1))).toNat
        some { s with
          cursor_y := y,
          cursor_x := (max 0 (min (mx - 5) ((s.lines.getD y []).length : Int))).toNat }
    else some s

/-- Run a list of commands, stopping (`none`) at the first uncaught error. -/
def applyCmds : List Cmd → EditorState → Option EditorState
  | [], s => some s
  | c :: cs, s => (applyCmd c s).bind (applyCmds cs)

/-- The commands that mutate the buffer: exactly the handlers that call
`save_undo()` in the source. -/
def isEdit : Cmd → Bool
  | .backspace | .newline | .tab | .insertChar _ | .cut | .paste
  | .replaceCmd _ _ => true
  | _ => false

/-- The cursor invariant claimed in the data model:
`0 ≤ row < len(Buffer)` and `0 ≤ column ≤ len(Buffer[row])`. -/
def Inv (s : EditorState) : Prop :=
  s.cursor_y < s.lines.length ∧ s.cursor_x ≤ (s.lines.getD s.cursor_y []).length

instance (s : EditorState) : Decidable (Inv s) := by unfold Inv; infer_instance

/-! ### Soft wrapping (`word_wrap` and the render loop's `wrapped_lines`) -/

/-- Fuel-driven fixed-size chunking, `fuel ≥ l.length` suffices for positive
width (Python `[line[i:i+width] for i in range(0, len(line), width)]`, whose
`range` step must be positive). -/
def chunksFuel (w : Nat) : Nat → Line → List Line
  | _, [] => []
  | 0, _ :: _ => []
  | fuel + 1, c :: rest => (c :: rest).take w :: chunksFuel w fuel ((c :: rest).drop w)

/-- Function `word_wrap(line, width)` from the source: chunks of at most `width`
characters when the line is longer than `width`, otherwise the line itself. -/
def word_wrap (line : Line) (width : Nat) : List Line :=
  if width < line.length then chunksFuel width line.length line else [line]

/-- The render loop building `wrapped_lines`: every line is wrapped and each
segment tagged with its original row index (`enumerate(lines)`). -/
def wrapFrom (k : Nat) (ls : Buffer) (width : Nat) : List (Nat × Line) :=
  match ls with
  | [] => []
  | l :: rest => (word_wrap l width).map (fun seg => (k, seg)) ++ wrapFrom (k + 1) rest width

/-- The `wrapped_lines` list for a whole buffer. -/
def wrap (ls : Buffer) (width : Nat) : List (Nat × Line) := wrapFrom 0 ls width

/-- The render loop's scan locating the cursor's display segment
(`for i, (orig_idx, _) in enumerate(wrapped_lines): ...`).  It returns the
pair `(visible_line_idx, cursor_x)` as left by the loop: the same Python
variable `cursor_x` is decremented while scanning past earlier segments of
the cursor row. -/
def cursorScanAux : List (Nat × Line) → Nat → Nat → Nat → Nat × Nat
  | [], _, _, x => (0, x)
  | (oi, seg) :: rest, cy, i, x =>
    if oi = cy then
      if x ≤ seg.length then (i, x)
      else cursorScanAux rest cy (i + 1) (x - seg.length)
    else cursorScanAux rest cy (i + 1) x

/-- Scan of the whole `wrapped_lines` list starting at index 0. -/
def cursorScan (wrapped : List (Nat × Line)) (cy x : Nat) : Nat × Nat :=
  cursorScanAux wrapped cy 0 x

/-- Lines 186-196 of the source: the cursor-to-display mapping as executed by
the render loop.  It yields the state after the scan (with the mutated
`cursor_x` written back) together with `visible_line_idx`. -/
def renderScan (s : EditorState) (text_width : Nat) : EditorState × Nat :=
  let r := cursorScan (wrap s.lines text_width) s.cursor_y s.cursor_x
  ({ s with cursor_x := r.2 }, r.1)

/-! ### File load and save -/

/-- Python text-mode reading: universal-newline translation of `\r\n` and
`\r` to `\n`. -/
def textRead : Line → Line
  | [] => []
  | c :: rest =>
    if c = '\x0d' then
      match rest with
      | '\n' :: rest2 => '\n' :: textRead rest2
      | [] => '\n' :: textRead []
      | c2 :: rest2 => '\n' :: textRead (c2 :: rest2)
    else c :: textRead rest

/-- The characters Python `str.splitlines` treats as line boundaries. -/
def isLineBoundary (c : Char) : Bool :=
  c = '\n' || c = '\x0d' || c = '\x0b' || c = '\x0c' ||
  c = '\x1c' || c = '\x1d' || c = '\x1e' || c = '\x85' ||
  c = '\u2028' || c = '\u2029'

/-- Python `str.splitlines()`: every boundary character ends a line (`\r\n`
counting as one boundary); a trailing boundary produces no empty final line;
the empty string yields `[]`. -/
def pySplitlines : Line → List Line
  | [] => []
  | c :: rest =>
    if c = '\x0d' then
      match rest with
      | '\n' :: rest2 => [] :: pySplitlines rest2
      | [] => [] :: pySplitlines []
      | c2 :: rest2 => [] :: pySplitlines (c2 :: rest2)
    else if isLineBoundary c then [] :: pySplitlines rest
    else
      match pySplitlines rest with
      | [] => [[c]]
      | l :: ls => (c :: l) :: ls

/-- The `if not lines: lines = ['']` padding after splitting. -/
def padNonempty (ls : Buffer) : Buffer :=
  if ls.isEmpty then [[]] else ls

/-- The load path (`lines = f.read().splitlines(); if not lines: lines = ['']`). -/
def loadFromText (content : Line) : Buffer :=
  padNonempty (pySplitlines (textRead content))

/-- Python `'\n'.join(lines)`. -/
def joinNL : Buffer → Line
  | [] => []
  | [l] => l
  | l :: ls => l ++ '\n' :: joinNL ls

/-- The save path's serialization: join with a single newline, no trailing
newline appended. -/
def serialize (buf : Buffer) : Line := joinNL buf

/-- A tiny filesystem: an association list from paths to file contents. -/
abbrev FS := List (String × Line)

/-- Read a file (`open(path).read()` / `os.path.exists`). -/
def fsRead : FS → String → Option Line
  | [], _ => none
  | e :: rest, p => if e.1 = p then some e.2 else fsRead rest p

/-- Remove a path's entry. -/
def fsErase : FS → String → FS
  | [], _ => []
  | e :: rest, p => if e.1 = p then fsErase rest p else e :: fsErase rest p

/-- Python `open(path, 'w').write(c)`: create or overwrite. -/
def fsWrite (fs : FS) (p : String) (c : Line) : FS :=
  (p, c) :: fsErase fs p

/-- Python `os.rename(src, dst)`: POSIX rename, silently replacing `dst`. -/
def fsRename (fs : FS) (src dst : String) : FS :=
  match fsRead fs src with
  | none => fs
  | some c => fsWrite (fsErase fs src) dst c

/-- The Ctrl-O save handler's filesystem effect (lines 276-280 of the
source): rename an existing target to `path + "~"`, then write the
serialized buffer to `path`. -/
def pySave (fs : FS) (path : String) (buf : Buffer) : FS :=
  let fs1 := if (fsRead fs path).isSome then fsRename fs path (path ++ "~") else fs
  fsWrite fs1 path (serialize buf)

/-- The editor state at session start with no file: `lines = ['']`, cursor at
the origin, empty clipboard and history. -/
def initState : EditorState := ⟨[[]], 0, 0, 0, [], [], [], false⟩

/-! ### C1, C2, C4, C6, C7, C8: concrete executions -/

/-- C1: the Ctrl-K handler has no empty-buffer substitution.  Cutting the
only line of the initial single-empty-line buffer leaves `lines = []` of
length zero, and the very next cursor command dies with an uncaught
`IndexError` (modelled by `none`). -/
theorem cut_on_single_line_empties_buffer :
    applyCmd Cmd.cut initState = some ⟨[], 0, 0, 0, [], [[[]]], [], true⟩ ∧
    (⟨[], 0, 0, 0, [], [[[]]], [], true⟩ : EditorState).lines.length = 0 ∧
    applyCmd Cmd.moveUp ⟨[], 0, 0, 0, [], [[[]]], [], true⟩ = none := by
  decide

/-- C2 (counterexample): a reachable state violating the cursor invariant.
Typing `abc` and pasting the (empty) clipboard slot at row 0 leaves the
cursor at column 3 of a zero-length line: `column ≤ len(Buffer[row])`
fails. -/
theorem paste_breaks_cursor_invariant :
    applyCmds [Cmd.insertChar 'a', Cmd.insertChar 'b', Cmd.insertChar 'c', Cmd.paste]
      initState =
      some ⟨[[], ['a', 'b', 'c']], 0, 3, 0, [],
        [[[]], [['a']], [['a', 'b']], [['a', 'b', 'c']]], [], true⟩ ∧
    ¬ Inv ⟨[[], ['a', 'b', 'c']], 0, 3, 0, [],
        [[[]], [['a']], [['a', 'b']], [['a', 'b', 'c']]], [], true⟩ := by
  decide

/-- C4 (counterexample): in the reachable state after `insertChar 'a'; undo`
the undo stack is empty but the redo stack is not.  A further (vacuous) undo
followed by redo yields buffer `["a"]`, not the pre-undo buffer `[""]`: redo
immediately after an undo does not restore the pre-undo buffer. -/
theorem redo_after_vacuous_undo_differs :
    applyCmds [Cmd.insertChar 'a', Cmd.undo] initState =
      some ⟨[[]], 0, 1, 0, [], [], [[['a']]], true⟩ ∧
    applyCmds [Cmd.undo, Cmd.redo] ⟨[[]], 0, 1, 0, [], [], [[['a']]], true⟩ =
      some ⟨[['a']], 0, 1, 0, [], [[[]]], [], true⟩ ∧
    ([['a']] : Buffer) ≠ [[]] := by
  decide

/-- C6 (counterexample): `replaceAll("a","a")` on buffer `["a"]` modifies no
line (the result equals the input buffer) yet returns count 1, so the count
is not the number of modified lines. -/
theorem replaceAll_counts_unmodified_line :
    replaceAllLoop [['a']] ['a'] ['a'] = ([['a']], 1) ∧ (1 : Nat) ≠ 0 := by
  decide

/-- C7 (counterexample): loading splits on characters other than `'\n'`.
Content `"a\x0bb"` (a vertical tab, no newline at all) loads as the two
lines `["a", "b"]`, and saving yields `"a\nb"`: the round trip rewrites the
content rather than losing at most a trailing newline. -/
theorem load_splits_on_vertical_tab :
    loadFromText ['a', '\x0b', 'b'] = [['a'], ['b']] ∧
    ¬ (serialize (loadFromText ['a', '\x0b', 'b']) = ['a', '\x0b', 'b'] ∨
       ['a', '\x0b', 'b'] = serialize (loadFromText ['a', '\x0b', 'b']) ++ ['\n']) := by
  decide

/-- C8 (code bug): the render loop's cursor-to-display scan writes the
decremented scratch value back into the logical `cursor_x`.  For buffer
`["abcdef"]` wrapped at width 3 with the cursor at column 5, the scan leaves
`cursor_x = 2`: the externally visible cursor state is mutated. -/
theorem render_scan_mutates_cursor_x :
    (renderScan ⟨[['a', 'b', 'c', 'd', 'e', 'f']], 0, 5, 0, [], [], [], false⟩ 3).1.cursor_x
      = 2 ∧
    (⟨[['a', 'b', 'c', 'd', 'e', 'f']], 0, 5, 0, [], [], [], false⟩ : EditorState).cursor_x
      = 5 ∧
    (2 : Nat) ≠ 5 := by
  decide

/-! ### C9: save with backup -/

theorem fsRead_fsErase_ne (fs : FS) (p q : String) (h : ¬ p = q) :
    fsRead (fsErase fs p) q = fsRead fs q := by
  induction fs with
  | nil => rfl
  | cons e rest ih =>
    simp only [fsErase, fsRead]
    by_cases he : e.1 = p
    · rw [if_pos he, ih, if_neg (he ▸ h)]
    · simp only [if_neg he, fsRead, ih]

theorem fsRead_fsWrite_self (fs : FS) (p : String) (c : Line) :
    fsRead (fsWrite fs p c) p = some c := by
  simp [fsWrite, fsRead]

theorem fsRead_fsWrite_ne (fs : FS) (p q : String) (c : Line) (h : ¬ p = q) :
    fsRead (fsWrite fs p c) q = fsRead fs q := by
  simp only [fsWrite, fsRead, if_neg h]
  exact fsRead_fsErase_ne fs p q h

/-- C9: when a file exists at the target path, saving renames it to
`path + "~"` before writing, so afterwards the backup holds exactly the
pre-save content and the target holds the serialized buffer. -/
theorem save_backup_preserves_old_content (fs : FS) (path : String) (buf : Buffer)
    (old : Line) (h : fsRead fs path = some old) :
    fsRead (pySave fs path buf) (path ++ "~") = some old ∧
    fsRead (pySave fs path buf) path = some (serialize buf) := by
  have hne : ¬ path = path ++ "~" := by
    intro he
    have hl := congrArg String.length he
    have h1 : ("~" : String).length = 1 := rfl
    rw [String.length_append, h1] at hl
    omega
  refine ⟨?_, ?_⟩
  · unfold pySave
    rw [h]
    simp only [Option.isSome_some, if_pos]
    rw [fsRead_fsWrite_ne _ _ _ _ hne]
    unfold fsRename
    rw [h, fsRead_fsWrite_self]
  · unfold pySave
    rw [fsRead_fsWrite_self]

/-- C9 (witness): scenario 6 of the specification — saving buffer `["new"]`
over an existing `notes.txt` containing `"old"` leaves `"old"` in
`notes.txt~` and `"new"` in `notes.txt`. -/
theorem save_backup_witness :
    fsRead (pySave [("notes.txt", ['o', 'l', 'd'])] "notes.txt" [['n', 'e', 'w']])
      ("notes.txt" ++ "~") = some ['o', 'l', 'd'] ∧
    fsRead (pySave [("notes.txt", ['o', 'l', 'd'])] "notes.txt" [['n', 'e', 'w']])
      "notes.txt" = some (serialize [['n', 'e', 'w']]) :=
  save_backup_preserves_old_content [("notes.txt", ['o', 'l', 'd'])] "notes.txt"
    [['n', 'e', 'w']] ['o', 'l', 'd'] (by decide)

/-! ### C5: properties of the wrap mapping -/

theorem chunksFuel_flatten (w : Nat) (hw : 0 < w) :
    ∀ fuel l, l.length ≤ fuel → (chunksFuel w fuel l).flatten = l := by
  intro fuel
  induction fuel with
  | zero =>
    intro l hl
    cases l with
    | nil => rfl
    | cons c rest => simp at hl
  | succ n ih =>
    intro l hl
    cases l with
    | nil => rfl
    | cons c rest =>
      simp only [chunksFuel, List.flatten_cons]
      rw [ih]
      · exact List.take_append_drop w (c :: rest)
      · rw [List.length_drop]
        simp only [List.length_cons] at hl ⊢
        omega

theorem chunksFuel_length (w : Nat) (hw : 0 < w) :
    ∀ fuel l, l.length ≤ fuel → (chunksFuel w fuel l).length = (l.length + w - 1) / w := by
  intro fuel
  induction fuel with
  | zero =>
    intro l hl
    cases l with
    | nil => simp [chunksFuel, Nat.div_eq_of_lt (show w - 1 < w by omega)]
    | cons c rest => simp at hl
  | succ n ih =>
    intro l hl
    cases l with
    | nil => simp [chunksFuel, Nat.div_eq_of_lt (show w - 1 < w by omega)]
    | cons c rest =>
      simp only [chunksFuel, List.length_cons]
      rw [ih _ (by rw [List.length_drop]; simp only [List.length_cons] at hl ⊢; omega)]
      rw [List.length_drop]
      simp only [List.length_cons]
      rcases Nat.lt_or_ge (rest.length + 1) w with hlt | hge
      · rw [show rest.length + 1 - w + w - 1 = w - 1 by omega]
        rw [Nat.div_eq_of_lt (show w - 1 < w by omega)]
        rw [Nat.div_eq_of_lt_le (show 1 * w ≤ rest.length + 1 + w - 1 by omega)
          (show rest.length + 1 + w - 1 < (1 + 1) * w by omega)]
      · rw [show rest.length + 1 - w + w - 1 = rest.length by omega]
        rw [show rest.length + 1 + w - 1 = rest.length + w by omega]
        rw [Nat.add_div_right _ hw]

theorem word_wrap_flatten (l : Line) (w : Nat) (hw : 0 < w) :
    (word_wrap l w).flatten = l := by
  unfold word_wrap
  split
  · exact chunksFuel_flatten w hw l.length l le_rfl
  · simp

theorem word_wrap_length (l : Line) (w : Nat) (hw : 0 < w) :
    (word_wrap l w).length = if l.length = 0 then 1 else (l.length + w - 1) / w := by
  unfold word_wrap
  split <;> rename_i hsplit
  · rw [chunksFuel_length w hw l.length l le_rfl, if_neg (by omega)]
  · by_cases h0 : l.length = 0
    · simp [h0]
    · rw [if_neg h0]
      show 1 = (l.length + w - 1) / w
      exact (Nat.div_eq_of_lt_le (show 1 * w ≤ l.length + w - 1 by omega)
        (show l.length + w - 1 < (1 + 1) * w by omega)).symm

theorem wrapFrom_tags_ge (ls : Buffer) (w : Nat) :
    ∀ k, ∀ p ∈ wrapFrom k ls w, k ≤ p.1 := by
  induction ls with
  | nil => intro k p hp; simp [wrapFrom] at hp
  | cons l rest ih =>
    intro k p hp
    simp only [wrapFrom, List.mem_append, List.mem_map] at hp
    rcases hp with ⟨seg, _, rfl⟩ | hp
    · exact le_rfl
    · exact Nat.le_of_succ_le (ih (k + 1) p hp)

theorem wrapFrom_filter_lt (ls : Buffer) (w k i : Nat) (h : i < k) :
    (wrapFrom k ls w).filter (fun p => p.1 == i) = [] := by
  rw [List.filter_eq_nil_iff]
  intro p hp
  have hk := wrapFrom_tags_ge ls w k p hp
  simp only [beq_iff_eq]
  omega

theorem wrapFrom_filter_eq (ls : Buffer) (w : Nat) :
    ∀ k i, i < ls.length →
      (wrapFrom k ls w).filter (fun p => p.1 == k + i) =
        (word_wrap (ls.getD i []) w).map (fun seg => (k + i, seg)) := by
  induction ls with
  | nil => intro k i h; simp at h
  | cons l rest ih =>
    intro k i h
    cases i with
    | zero =>
      simp only [wrapFrom, List.filter_append]
      rw [List.filter_map]
      have h1 : ((fun p : Nat × Line => p.1 == k + 0) ∘ (fun seg => (k, seg))) =
          fun _ => true := by
        funext seg; simp
      rw [h1, List.filter_true]
      rw [wrapFrom_filter_lt rest w (k + 1) (k + 0) (by omega)]
      simp [List.getD]
    | succ j =>
      simp only [wrapFrom, List.filter_append]
      rw [List.filter_map]
      have h1 : ((fun p : Nat × Line => p.1 == k + (j + 1)) ∘ (fun seg => (k, seg))) =
          fun _ => false := by
        funext seg; simp
      rw [h1, List.filter_false]
      have h2 := ih (k + 1) j (by simp only [List.length_cons] at h; omega)
      rw [show k + (j + 1) = (k + 1) + j by omega, h2]
      simp [List.getD]

/-- C5: for every buffer and positive width, the display segments carrying
one original row index concatenate back to exactly that line, and their
number is `ceil(L / width)` with a minimum of one for an empty line. -/
theorem wrap_reconstructs_and_counts (ls : Buffer) (width : Nat) (hw : 0 < width)
    (i : Nat) (hi : i < ls.length) :
    ((((wrap ls width).filter (fun p => p.1 == i)).map Prod.snd).flatten = ls[i]) ∧
    (((wrap ls width).filter (fun p => p.1 == i)).length =
      if (ls[i]).length = 0 then 1 else ((ls[i]).length + width - 1) / width) := by
  have hgd : ls.getD i [] = ls[i] := by
    rw [List.getD_eq_getElem?_getD, List.getElem?_eq_getElem hi, Option.getD_some]
  have hf : (wrap ls width).filter (fun p => p.1 == i) =
      (word_wrap ls[i] width).map (fun seg => (i, seg)) := by
    have h0 := wrapFrom_filter_eq ls width 0 i hi
    rw [Nat.zero_add, hgd] at h0
    exact h0
  constructor
  · rw [hf, List.map_map]
    have hid : (Prod.snd ∘ (fun seg : Line => (i, seg))) = id := rfl
    rw [hid, List.map_id, word_wrap_flatten _ _ hw]
  · rw [hf, List.length_map, word_wrap_length _ _ hw]

/-- C5 (witness): scenario 3 of the specification, `wrap(["abcdefgh"], 5)`,
instantiated at row 0: the two segments concatenate to `"abcdefgh"` and the
segment count is `ceil(8 / 5) = 2`. -/
theorem wrap_reconstructs_witness :
    ((((wrap [['a', 'b', 'c', 'd', 'e', 'f', 'g', 'h']] 5).filter
        (fun p => p.1 == 0)).map Prod.snd).flatten =
      ([['a', 'b', 'c', 'd', 'e', 'f', 'g', 'h']] : Buffer)[0]) ∧
    (((wrap [['a', 'b', 'c', 'd', 'e', 'f', 'g', 'h']] 5).filter
        (fun p => p.1 == 0)).length =
      if (([['a', 'b', 'c', 'd', 'e', 'f', 'g', 'h']] : Buffer)[0]).length = 0 then 1
      else ((([['a', 'b', 'c', 'd', 'e', 'f', 'g', 'h']] : Buffer)[0]).length + 5 - 1) / 5) :=
  wrap_reconstructs_and_counts [['a', 'b', 'c', 'd', 'e', 'f', 'g', 'h']] 5 (by decide)
    0 (by decide)

/-! ### C10: frame effects of buffer-preserving edits -/

theorem replaceAllLoop_no_match (ls : Buffer) (f r : Line)
    (h : ∀ l ∈ ls, containsSub l f = false) : replaceAllLoop ls f r = (ls, 0) := by
  induction ls with
  | nil => rfl
  | cons l rest ih =>
    simp only [replaceAllLoop]
    rw [ih (fun x hx => h x (List.mem_cons_of_mem _ hx))]
    simp [h l (List.mem_cons_self _ _)]

/-- C10: Backspace at row 0, column 0, and ReplaceAll with a term occurring
in no line, leave every line of the buffer unchanged yet still push an undo
snapshot, clear the redo stack, and set the modified flag. -/
theorem noop_edits_still_push_history (s : EditorState) (f r : Line)
    (hx : s.cursor_x = 0) (hy : s.cursor_y = 0)
    (hf : ∀ l ∈ s.lines, containsSub l f = false) :
    applyCmd Cmd.backspace s = some { save_undo s with modified := true } ∧
    applyCmd (Cmd.replaceCmd f r) s = some { save_undo s with modified := true } ∧
    (save_undo s).lines = s.lines ∧
    (save_undo s).undo_stack = pushCap s.undo_stack s.lines ∧
    (save_undo s).redo_stack = [] ∧
    ({ save_undo s with modified := true } : EditorState).modified = true := by
  obtain ⟨ls, cy, cx, so, cl, us, rs, m⟩ := s
  simp only at hx hy hf
  subst hx hy
  refine ⟨rfl, ?_, rfl, rfl, rfl, rfl⟩
  simp only [applyCmd, save_undo]
  rw [replaceAllLoop_no_match ls f r hf]

/-- C10 (witness): the frame-effect theorem applied to the fresh editor
state with the absent term `"z"`. -/
theorem noop_edits_witness :
    applyCmd Cmd.backspace initState = some { save_undo initState with modified := true } ∧
    applyCmd (Cmd.replaceCmd ['z'] []) initState =
      some { save_undo initState with modified := true } ∧
    (save_undo initState).lines = initState.lines ∧
    (save_undo initState).undo_stack = pushCap initState.undo_stack initState.lines ∧
    (save_undo initState).redo_stack = [] ∧
    ({ save_undo initState with modified := true } : EditorState).modified = true :=
  noop_edits_still_push_history initState ['z'] [] rfl rfl (by decide)

/-! ### C3: N mutating edits followed by N undos -/

/-- Every mutating edit that completes leaves exactly the `save_undo()`
history effect: the pre-edit buffer pushed (with capacity eviction) and the
redo stack cleared. -/
theorem isEdit_stack (c : Cmd) (s t : EditorState) (hc : isEdit c = true)
    (h : applyCmd c s = some t) :
    t.undo_stack = pushCap s.undo_stack s.lines ∧ t.redo_stack = [] := by
  cases c with
  | backspace =>
    simp only [applyCmd] at h
    split at h
    · split at h
      · exact Option.noConfusion h
      · injection h with h2; subst h2; exact ⟨rfl, rfl⟩
    · split at h
      · split at h
        · injection h with h2; subst h2; exact ⟨rfl, rfl⟩
        · exact Option.noConfusion h
      · injection h with h2; subst h2; exact ⟨rfl, rfl⟩
  | newline =>
    simp only [applyCmd] at h
    split at h
    · exact Option.noConfusion h
    · injection h with h2; subst h2; exact ⟨rfl, rfl⟩
  | tab =>
    simp only [applyCmd] at h
    split at h
    · exact Option.noConfusion h
    · injection h with h2; subst h2; exact ⟨rfl, rfl⟩
  | insertChar c0 =>
    simp only [applyCmd] at h
    split at h
    · exact Option.noConfusion h
    · injection h with h2; subst h2; exact ⟨rfl, rfl⟩
  | cut =>
    simp only [applyCmd] at h
    split at h
    · exact Option.noConfusion h
    · injection h with h2; subst h2; exact ⟨rfl, rfl⟩
  | paste =>
    simp only [applyCmd] at h
    injection h with h2; subst h2; exact ⟨rfl, rfl⟩
  | replaceCmd f r =>
    simp only [applyCmd] at h
    injection h with h2; subst h2; exact ⟨rfl, rfl⟩
  | moveUp => simp [isEdit] at hc
  | moveDown => simp [isEdit] at hc
  | moveLeft => simp [isEdit] at hc
  | moveRight => simp [isEdit] at hc
  | undo => simp [isEdit] at hc
  | redo => simp [isEdit] at hc
  | whereIs term => simp [isEdit] at hc
  | gotoLine g => simp [isEdit] at hc
  | mouse mx my th => simp [isEdit] at hc

theorem suffix_drop_one {α : Type} {v w : List α} (h : v <:+ w)
    (hlt : v.length < w.length) : v <:+ w.drop 1 := by
  obtain ⟨u, rfl⟩ := h
  cases u with
  | nil => simp at hlt
  | cons a u2 => simp

theorem pushCap_suffix {keep us : List Buffer} (l : Buffer)
    (h : keep <:+ us) (hlen : keep.length + 1 ≤ 100) :
    keep ++ [l] <:+ pushCap us l := by
  have h1 : keep ++ [l] <:+ us ++ [l] := by
    obtain ⟨u, rfl⟩ := h
    exact ⟨u, by simp⟩
  unfold pushCap
  split
  · rename_i hlong
    apply suffix_drop_one h1
    simp only [List.length_append, List.length_cons, List.length_nil] at hlong ⊢
    omega
  · exact h1

theorem undoStep_concat (s : EditorState) (q : List Buffer) (l : Buffer)
    (h : s.undo_stack = q ++ [l]) :
    (undoStep s).lines = l ∧ (undoStep s).undo_stack = q := by
  unfold undoStep
  rw [h, List.getLast?_concat, List.dropLast_concat]
  exact ⟨rfl, rfl⟩

theorem edits_undo_aux :
    ∀ (cmds : List Cmd) (s t : EditorState) (keep : List Buffer),
      (∀ c ∈ cmds, isEdit c = true) → applyCmds cmds s = some t →
      keep <:+ s.undo_stack → cmds.length + keep.length ≤ 100 →
      (undoN cmds.length t).lines = s.lines ∧
        keep <:+ (undoN cmds.length t).undo_stack := by
  intro cmds
  induction cmds with
  | nil =>
    intro s t keep hE h hkeep hlen
    simp only [applyCmds, Option.some.injEq] at h
    subst h
    exact ⟨rfl, hkeep⟩
  | cons c cs ih =>
    intro s t keep hE h hkeep hlen
    simp only [applyCmds] at h
    cases hm : applyCmd c s with
    | none => rw [hm] at h; exact Option.noConfusion h
    | some m =>
      rw [hm] at h
      simp only [Option.some_bind] at h
      have hstack := isEdit_stack c s m (hE c (List.mem_cons_self _ _)) hm
      have hkeep2 : keep ++ [s.lines] <:+ m.undo_stack := by
        rw [hstack.1]
        exact pushCap_suffix s.lines hkeep
          (by simp only [List.length_cons] at hlen; omega)
      have hih := ih m t (keep ++ [s.lines])
        (fun x hx => hE x (List.mem_cons_of_mem _ hx)) h hkeep2
        (by simp only [List.length_cons, List.length_append, List.length_nil] at hlen ⊢
            omega)
      obtain ⟨q, hq⟩ := hih.2
      have hq2 : (undoN cs.length t).undo_stack = (q ++ keep) ++ [s.lines] := by
        rw [← hq]; simp
      have hu := undoStep_concat (undoN cs.length t) (q ++ keep) s.lines hq2
      simp only [List.length_cons, undoN]
      refine ⟨hu.1, ?_⟩
      rw [hu.2]
      exact List.suffix_append q keep

/-- C3: for every starting state and every sequence of at most 100 mutating
edits that runs to completion, performing as many undos afterwards restores
the buffer that existed before the first edit. -/
theorem edits_then_undos_restore (cmds : List Cmd) (s t : EditorState)
    (hE : ∀ c ∈ cmds, isEdit c = true) (hN : cmds.length ≤ 100)
    (h : applyCmds cmds s = some t) :
    (undoN cmds.length t).lines = s.lines :=
  (edits_undo_aux cmds s t [] hE h List.nil_suffix (by simpa using hN)).1

/-- C3 (witness): inserting `'a'` and a tab into the fresh buffer and then
undoing twice restores the single empty line. -/
theorem edits_then_undos_witness :
    (undoN 2 ⟨[['a', ' ', ' ', ' ', ' ']], 0, 5, 0, [], [[[]], [['a']]], [], true⟩).lines
      = initState.lines :=
  edits_then_undos_restore [Cmd.insertChar 'a', Cmd.tab] initState
    ⟨[['a', ' ', ' ', ' ', ' ']], 0, 5, 0, [], [[[]], [['a']]], [], true⟩
    (by decide) (by decide) (by decide)

/-! ### C4: undo/redo round trip, amended -/

/-- C4 (amended): when the undo stack is non-empty — so the undo actually
restores a snapshot — redo immediately afterwards restores exactly the
pre-undo buffer and undo stack; and after any mutating edit the redo stack
is empty, so a subsequent redo is a no-op.  (When the undo stack is empty
but the redo stack is not, a vacuous undo followed by redo changes the
buffer — see the counterexample.) -/
theorem undo_redo_amended (s : EditorState) :
    (s.undo_stack ≠ [] →
      (redoStep (undoStep s)).lines = s.lines ∧
      (redoStep (undoStep s)).undo_stack = s.undo_stack) ∧
    (∀ c t, isEdit c = true → applyCmd c s = some t →
      t.redo_stack = [] ∧ redoStep t = t) := by
  constructor
  · intro hne
    obtain ⟨ls, cy, cx, so, cl, us, rs, m⟩ := s
    simp only at hne ⊢
    rcases List.eq_nil_or_concat us with hnil | ⟨q, l, hq⟩
    · exact absurd hnil hne
    · rw [List.concat_eq_append] at hq
      subst hq
      have h1 : undoStep ⟨ls, cy, cx, so, cl, q ++ [l], rs, m⟩ =
          ⟨l, cy, cx, so, cl, q, rs ++ [ls], m⟩ := by
        simp only [undoStep, List.getLast?_concat, List.dropLast_concat]
      have h2 : redoStep ⟨l, cy, cx, so, cl, q, rs ++ [ls], m⟩ =
          ⟨ls, cy, cx, so, cl, q ++ [l], rs, m⟩ := by
        simp only [redoStep, List.getLast?_concat, List.dropLast_concat]
      rw [h1, h2]
      exact ⟨rfl, rfl⟩
  · intro c t hc h
    have hs := isEdit_stack c s t hc h
    refine ⟨hs.2, ?_⟩
    unfold redoStep
    rw [hs.2]
    rfl

/-- C4 (witness): in the state reached by one insertion — undo stack
`[[""]]`, redo stack empty — undo then redo restores the buffer `["a"]` and
the undo stack; and the paste edit from there leaves an empty redo stack on
which redo is a no-op. -/
theorem undo_redo_amended_witness :
    ((redoStep (undoStep ⟨[['a']], 0, 1, 0, [], [[[]]], [], true⟩)).lines =
        (⟨[['a']], 0, 1, 0, [], [[[]]], [], true⟩ : EditorState).lines ∧
      (redoStep (undoStep ⟨[['a']], 0, 1, 0, [], [[[]]], [], true⟩)).undo_stack =
        (⟨[['a']], 0, 1, 0, [], [[[]]], [], true⟩ : EditorState).undo_stack) ∧
    ((⟨[[], ['a']], 0, 1, 0, [], [[[]], [['a']]], [], true⟩ : EditorState).redo_stack = [] ∧
      redoStep ⟨[[], ['a']], 0, 1, 0, [], [[[]], [['a']]], [], true⟩ =
        ⟨[[], ['a']], 0, 1, 0, [], [[[]], [['a']]], [], true⟩) :=
  ⟨(undo_redo_amended ⟨[['a']], 0, 1, 0, [], [[[]]], [], true⟩).1 (by decide),
   (undo_redo_amended ⟨[['a']], 0, 1, 0, [], [[[]]], [], true⟩).2 Cmd.paste
     ⟨[[], ['a']], 0, 1, 0, [], [[[]], [['a']]], [], true⟩ (by decide) (by decide)⟩

/-! ### C6: replace-all, amended -/

theorem containsSub_nil_iff (pat : Line) : containsSub [] pat = true ↔ pat = [] := by
  cases pat with
  | nil => simp [containsSub, List.isPrefixOf]
  | cons p ps => simp [containsSub, List.isPrefixOf]

theorem containsSub_cons (c : Char) (rest pat : Line) :
    containsSub (c :: rest) pat = (pat.isPrefixOf (c :: rest) || containsSub rest pat) := by
  simp [containsSub, List.tails_cons]

theorem replaceFuel_length_le (pat rep : Line) (hr : rep.length ≤ pat.length) :
    ∀ fuel s, (replaceFuel pat rep fuel s).length ≤ s.length := by
  intro fuel
  induction fuel with
  | zero => intro s; exact le_rfl
  | succ n ih =>
    intro s
    cases s with
    | nil => exact le_rfl
    | cons c rest =>
      simp only [replaceFuel]
      split
      · rename_i hp
        have hple : pat.length ≤ rest.length + 1 := by
          have := List.IsPrefix.length_le (List.isPrefixOf_iff_prefix.mp hp)
          simpa using this
        have ht := ih (rest.drop (pat.length - 1))
        rw [List.length_drop] at ht
        simp only [List.length_append, List.length_cons]
        omega
      · simp only [List.length_cons]
        exact Nat.succ_le_succ (ih rest)

theorem replaceFuel_length_ge (pat rep : Line) (hpat : pat ≠ [])
    (hr : pat.length ≤ rep.length) :
    ∀ fuel s, s.length ≤ (replaceFuel pat rep fuel s).length := by
  have hp1 : 0 < pat.length := List.length_pos.mpr hpat
  intro fuel
  induction fuel with
  | zero => intro s; exact le_rfl
  | succ n ih =>
    intro s
    cases s with
    | nil => exact le_rfl
    | cons c rest =>
      simp only [replaceFuel]
      split
      · rename_i hp
        have hple : pat.length ≤ rest.length + 1 := by
          have := List.IsPrefix.length_le (List.isPrefixOf_iff_prefix.mp hp)
          simpa using this
        have ht := ih (rest.drop (pat.length - 1))
        rw [List.length_drop] at ht
        simp only [List.length_append, List.length_cons]
        omega
      · simp only [List.length_cons]
        exact Nat.succ_le_succ (ih rest)

theorem replaceFuel_changes (pat rep : Line) (hpat : pat ≠ []) (hne : pat ≠ rep) :
    ∀ fuel s, s.length ≤ fuel → containsSub s pat = true →
      replaceFuel pat rep fuel s ≠ s := by
  have hp1 : 0 < pat.length := List.length_pos.mpr hpat
  intro fuel
  induction fuel with
  | zero =>
    intro s hlen hc
    have : s = [] := List.length_eq_zero.mp (by omega)
    subst this
    exact absurd ((containsSub_nil_iff pat).mp hc) hpat
  | succ n ih =>
    intro s hlen hc
    cases s with
    | nil => exact absurd ((containsSub_nil_iff pat).mp hc) hpat
    | cons c rest =>
      simp only [replaceFuel]
      split
      · rename_i hp
        intro heq
        have hpre : pat <+: c :: rest := List.isPrefixOf_iff_prefix.mp hp
        have hple : pat.length ≤ rest.length + 1 := by
          simpa using List.IsPrefix.length_le hpre
        have hlen2 : rep.length +
            (replaceFuel pat rep n (rest.drop (pat.length - 1))).length =
            rest.length + 1 := by
          have h3 := congrArg List.length heq
          simp only [List.length_append, List.length_cons] at h3
          omega
        rcases Nat.lt_trichotomy rep.length pat.length with hlt | heqlen | hgt
        · -- a strictly shrinking replacement cannot reproduce the input
          have ht := replaceFuel_length_le pat rep (by omega) n
            (rest.drop (pat.length - 1))
          rw [List.length_drop] at ht
          omega
        · -- equal lengths force `rep = pat`
          have h1 : (rep ++ replaceFuel pat rep n (rest.drop (pat.length - 1))).take
              rep.length = rep := List.take_left _ _
          have h2 : (c :: rest).take pat.length = pat :=
            (List.prefix_iff_eq_take.mp hpre).symm
          rw [heq, heqlen, h2] at h1
          exact hne (h1.symm ▸ rfl)
        · -- a strictly growing replacement cannot reproduce the input
          have ht := replaceFuel_length_ge pat rep hpat (by omega) n
            (rest.drop (pat.length - 1))
          rw [List.length_drop] at ht
          omega
      · rename_i hp
        intro heq
        have htail : replaceFuel pat rep n rest = rest := by
          injection heq
        have hcrest : containsSub rest pat = true := by
          rw [containsSub_cons] at hc
          rcases Bool.or_eq_true_iff.mp hc with h1 | h1
          · exact absurd h1 hp
          · exact h1
        exact ih rest (by simp only [List.length_cons] at hlen; omega) hcrest htail

theorem pyReplace_changes (l f r : Line) (hf : f ≠ []) (hne : f ≠ r)
    (hc : containsSub l f = true) : pyReplace l f r ≠ l := by
  unfold pyReplace
  rw [if_neg (by simpa [List.isEmpty_iff] using hf)]
  exact replaceFuel_changes f r hf hne l.length l le_rfl hc

theorem replaceAllLoop_spec (ls : Buffer) (f r : Line) :
    (replaceAllLoop ls f r).1 =
      ls.map (fun l => if containsSub l f then pyReplace l f r else l) ∧
    (replaceAllLoop ls f r).2 = (ls.filter (fun l => containsSub l f)).length := by
  induction ls with
  | nil => exact ⟨rfl, rfl⟩
  | cons l rest ih =>
    simp only [replaceAllLoop, List.map_cons, List.filter_cons]
    by_cases hc : containsSub l f
    · simp [hc, ih.1, ih.2]
    · simp [hc, ih.1, ih.2]

theorem replaceAllLoop_modified_count (ls : Buffer) (f r : Line)
    (hf : f ≠ []) (hne : f ≠ r) :
    ((ls.zip (replaceAllLoop ls f r).1).filter
        (fun p => decide (p.1 ≠ p.2))).length = (replaceAllLoop ls f r).2 := by
  induction ls with
  | nil => rfl
  | cons l rest ih =>
    simp only [replaceAllLoop]
    by_cases hc : containsSub l f
    · have hmod : l ≠ pyReplace l f r := Ne.symm (pyReplace_changes l f r hf hne hc)
      rw [if_pos hc]
      simp only [List.zip_cons_cons, List.filter_cons]
      rw [if_pos (decide_eq_true hmod)]
      simp only [List.length_cons]
      rw [ih]
    · rw [if_neg hc]
      simp only [List.zip_cons_cons, List.filter_cons]
      rw [if_neg (by simp)]
      exact ih

/-- C6 (amended): replaceAll rewrites exactly the lines containing the find
term (each by Python `str.replace`), leaves every other line unchanged, and
returns a count equal to the number of lines containing the term; whenever
`find ≠ replace` this is also the number of modified lines, but when
`replace = find` unmodified lines are still counted. -/
theorem replaceAll_amended (ls : Buffer) (f r : Line) (hf : f ≠ []) :
    (replaceAllLoop ls f r).1 =
      ls.map (fun l => if containsSub l f then pyReplace l f r else l) ∧
    (replaceAllLoop ls f r).2 = (ls.filter (fun l => containsSub l f)).length ∧
    (f ≠ r →
      (replaceAllLoop ls f r).2 =
        ((ls.zip (replaceAllLoop ls f r).1).filter
          (fun p => decide (p.1 ≠ p.2))).length) :=
  ⟨(replaceAllLoop_spec ls f r).1, (replaceAllLoop_spec ls f r).2,
   fun hne => (replaceAllLoop_modified_count ls f r hf hne).symm⟩

/-- C6 (witness): scenario 5 of the specification, `replaceAll("a","b")` on
`["banana","apple"]`, instantiated in the amended theorem. -/
theorem replaceAll_amended_witness :
    (replaceAllLoop [['b', 'a', 'n', 'a', 'n', 'a'], ['a', 'p', 'p', 'l', 'e']]
        ['a'] ['b']).1 =
      [['b', 'a', 'n', 'a', 'n', 'a'], ['a', 'p', 'p', 'l', 'e']].map
        (fun l => if containsSub l ['a'] then pyReplace l ['a'] ['b'] else l) ∧
    (replaceAllLoop [['b', 'a', 'n', 'a', 'n', 'a'], ['a', 'p', 'p', 'l', 'e']]
        ['a'] ['b']).2 =
      ([['b', 'a', 'n', 'a', 'n', 'a'], ['a', 'p', 'p', 'l', 'e']].filter
        (fun l => containsSub l ['a'])).length ∧
    (['a'] ≠ ['b'] →
      (replaceAllLoop [['b', 'a', 'n', 'a', 'n', 'a'], ['a', 'p', 'p', 'l', 'e']]
          ['a'] ['b']).2 =
        (([['b', 'a', 'n', 'a', 'n', 'a'], ['a', 'p', 'p', 'l', 'e']].zip
            (replaceAllLoop [['b', 'a', 'n', 'a', 'n', 'a'], ['a', 'p', 'p', 'l', 'e']]
              ['a'] ['b']).1).filter
          (fun p => decide (p.1 ≠ p.2))).length) :=
  replaceAll_amended [['b', 'a', 'n', 'a', 'n', 'a'], ['a', 'p', 'p', 'l', 'e']]
    ['a'] ['b'] (by decide)

/-! ### C7: load/save round trip, amended -/

theorem textRead_no_cr (l : Line) (h : ∀ c ∈ l, c ≠ '\x0d') : textRead l = l := by
  induction l with
  | nil => rfl
  | cons c rest ih =>
    rw [textRead.eq_def]
    dsimp only
    rw [if_neg (h c (List.mem_cons_self _ _))]
    rw [ih (fun x hx => h x (List.mem_cons_of_mem _ hx))]

theorem pySplitlines_ne_nil (c0 : Char) (rest : Line) :
    pySplitlines (c0 :: rest) ≠ [] := by
  rw [pySplitlines.eq_def]
  dsimp only
  split
  · split <;> simp
  · split
    · simp
    · split <;> simp

theorem join_split_only_nl (c : Line)
    (h : ∀ ch ∈ c, isLineBoundary ch = true → ch = '\n') :
    joinNL (padNonempty (pySplitlines c)) =
      if c.getLast? = some '\n' then c.dropLast else c := by
  induction c with
  | nil => decide
  | cons ch rest ih =>
    have hch : ch ≠ '\x0d' := by
      intro he
      have h2 := h ch (List.mem_cons_self _ _) (by rw [he]; decide)
      rw [he] at h2
      exact absurd h2 (by decide)
    have hrest : ∀ x ∈ rest, isLineBoundary x = true → x = '\n' :=
      fun x hx => h x (List.mem_cons_of_mem _ hx)
    by_cases hnl : ch = '\n'
    · subst hnl
      have e1 : pySplitlines ('\n' :: rest) = [] :: pySplitlines rest := by
        rw [pySplitlines.eq_def]
        dsimp only
        rw [if_neg (by decide), if_pos (by decide)]
      rw [e1]
      cases rest with
      | nil => decide
      | cons r0 rest2 =>
        have hne2 : pySplitlines (r0 :: rest2) ≠ [] := pySplitlines_ne_nil r0 rest2
        obtain ⟨L0, Ls, hL⟩ : ∃ L0 Ls, pySplitlines (r0 :: rest2) = L0 :: Ls := by
          cases hx : pySplitlines (r0 :: rest2) with
          | nil => exact absurd hx hne2
          | cons a b => exact ⟨a, b, rfl⟩
        rw [hL]
        have e3 : joinNL (padNonempty ([] :: L0 :: Ls)) = '\n' :: joinNL (L0 :: Ls) := rfl
        rw [e3]
        have ih2 := ih hrest
        rw [hL] at ih2
        have e4 : padNonempty (L0 :: Ls) = L0 :: Ls := rfl
        rw [e4] at ih2
        rw [ih2, List.getLast?_cons_cons]
        by_cases hg : (r0 :: rest2).getLast? = some '\n'
        · rw [if_pos hg, if_pos hg, List.dropLast_cons₂]
        · rw [if_neg hg, if_neg hg]
    · have hb : isLineBoundary ch = false := by
        cases hbb : isLineBoundary ch
        · rfl
        · exact absurd (h ch (List.mem_cons_self _ _) hbb) hnl
      have e1 : pySplitlines (ch :: rest) =
          match pySplitlines rest with
          | [] => [[ch]]
          | l :: ls => (ch :: l) :: ls := by
        rw [pySplitlines.eq_def]
        dsimp only
        rw [if_neg hch, if_neg (by simp [hb])]
      cases rest with
      | nil =>
        rw [e1]
        show joinNL (padNonempty [[ch]]) = _
        have e2 : joinNL (padNonempty [[ch]]) = [ch] := rfl
        rw [e2, List.getLast?_singleton, if_neg (by simp [hnl])]
      | cons r0 rest2 =>
        have hne2 : pySplitlines (r0 :: rest2) ≠ [] := pySplitlines_ne_nil r0 rest2
        obtain ⟨L0, Ls, hL⟩ : ∃ L0 Ls, pySplitlines (r0 :: rest2) = L0 :: Ls := by
          cases hx : pySplitlines (r0 :: rest2) with
          | nil => exact absurd hx hne2
          | cons a b => exact ⟨a, b, rfl⟩
        rw [e1, hL]
        have e3 : joinNL (padNonempty ((ch :: L0) :: Ls)) = ch :: joinNL (L0 :: Ls) := by
          cases Ls with
          | nil => rfl
          | cons x xs => rfl
        rw [e3]
        have ih2 := ih hrest
        rw [hL] at ih2
        have e4 : padNonempty (L0 :: Ls) = L0 :: Ls := rfl
        rw [e4] at ih2
        rw [ih2, List.getLast?_cons_cons]
        by_cases hg : (r0 :: rest2).getLast? = some '\n'
        · rw [if_pos hg, if_pos hg, List.dropLast_cons₂]
        · rw [if_neg hg, if_neg hg]

/-- C7 (amended): loading splits on every Python line boundary (not only
`'\n'`), so the at-most-one-trailing-newline round trip holds exactly for
content whose only boundary characters are `'\n'`: then save after load
yields the content with one trailing newline removed when present, and the
unchanged content otherwise. -/
theorem round_trip_amended (c : Line)
    (h : ∀ ch ∈ c, isLineBoundary ch = true → ch = '\n') :
    serialize (loadFromText c) =
      if c.getLast? = some '\n' then c.dropLast else c := by
  have hcr : ∀ ch ∈ c, ch ≠ '\x0d' := by
    intro ch hch he
    have h2 := h ch hch (by rw [he]; decide)
    rw [he] at h2
    exact absurd h2 (by decide)
  unfold loadFromText serialize
  rw [textRead_no_cr c hcr]
  exact join_split_only_nl c h

/-- C7 (witness): content `"ab\ncd\n"` (only `'\n'` boundaries) loads and
saves back to `"ab\ncd"` — exactly the content minus its one trailing
newline. -/
theorem round_trip_witness :
    serialize (loadFromText ['a', 'b', '\n', 'c', 'd', '\n']) =
      if ['a', 'b', '\n', 'c', 'd', '\n'].getLast? = some '\n' then
        ['a', 'b', '\n', 'c', 'd', '\n'].dropLast
      else ['a', 'b', '\n', 'c', 'd', '\n'] :=
  round_trip_amended ['a', 'b', '\n', 'c', 'd', '\n'] (by decide)

/-! ### C2: the cursor invariant, amended -/

theorem getD_eq_getElem {α : Type} (l : List α) (d : α) (i : Nat) (hi : i < l.length) :
    l.getD i d = l[i] := by
  rw [List.getD_eq_getElem?_getD, List.getElem?_eq_getElem hi, Option.getD_some]

theorem getD_set_self {α : Type} (l : List α) (i : Nat) (v d : α) (h : i < l.length) :
    (l.set i v).getD i d = v := by
  induction l generalizing i with
  | nil => simp at h
  | cons a as ih =>
    cases i with
    | zero => rfl
    | succ j => exact ih j (by simpa using h)

theorem getD_set_ne {α : Type} (l : List α) (i j : Nat) (v d : α) (hne : i ≠ j) :
    (l.set i v).getD j d = l.getD j d := by
  induction l generalizing i j with
  | nil => rfl
  | cons a as ih =>
    cases i with
    | zero =>
      cases j with
      | zero => exact absurd rfl hne
      | succ j2 => rfl
    | succ i2 =>
      cases j with
      | zero => rfl
      | succ j2 => exact ih i2 j2 (by omega)

theorem getD_append_lt {α : Type} (l1 l2 : List α) (j : Nat) (d : α)
    (h : j < l1.length) : (l1 ++ l2).getD j d = l1.getD j d := by
  induction l1 generalizing j with
  | nil => simp at h
  | cons a as ih =>
    cases j with
    | zero => rfl
    | succ j2 => exact ih j2 (by simpa using h)

theorem getD_take_lt {α : Type} (l : List α) (i j : Nat) (d : α) (h : j < i) :
    (l.take i).getD j d = l.getD j d := by
  induction l generalizing i j with
  | nil => simp
  | cons a as ih =>
    cases i with
    | zero => omega
    | succ i2 =>
      cases j with
      | zero => rfl
      | succ j2 => exact ih i2 j2 (by omega)

theorem length_pyPop {α : Type} (l : List α) (i : Nat) (h : i < l.length) :
    (pyPop l i).length = l.length - 1 := by
  unfold pyPop
  simp only [List.length_append, List.length_take, List.length_drop]
  omega

theorem length_pyInsertAt {α : Type} (l : List α) (i : Nat) (a : α) (h : i ≤ l.length) :
    (pyInsertAt l i a).length = l.length + 1 := by
  unfold pyInsertAt
  simp only [List.length_append, List.length_take, List.length_cons, List.length_drop]
  omega

theorem pyFindIdx_le (s pat : Line) : pyFindIdx s pat ≤ s.length := by
  unfold pyFindIdx
  cases hf : (List.range (s.length + 1)).find? (fun i => pat.isPrefixOf (s.drop i)) with
  | none => simp
  | some i =>
    have hm := List.mem_of_find?_eq_some hf
    rw [List.mem_range] at hm
    simp only [Option.getD_some]
    omega

/-- The commands for which the cursor invariant is preserved: paste,
replaceAll, undo and redo are excluded (they do not re-clamp the column
against the new buffer), and cut requires at least two lines (on a
single-line buffer it empties the buffer). -/
def cursorSafe : Cmd → EditorState → Bool
  | .paste, _ => false
  | .undo, _ => false
  | .redo, _ => false
  | .replaceCmd _ _, _ => false
  | .cut, s => 2 ≤ s.lines.length
  | _, _ => true

/-- C2 (amended): the cursor invariant `0 ≤ row < len(Buffer)` and
`0 ≤ column ≤ len(Buffer[row])` is preserved by the moves, backspace,
newline, tab, printable insertion, search, goto, mouse positioning, and cut
on a buffer of at least two lines; it is not preserved in general by paste,
replaceAll, undo or redo (see the counterexample), nor by cut on a
single-line buffer. -/
theorem cursor_invariant_safe_cmds (c : Cmd) (s t : EditorState) (hs : Inv s)
    (hc : cursorSafe c s = true) (h : applyCmd c s = some t) : Inv t := by
  obtain ⟨hy, hx⟩ := hs
  cases c with
  | moveUp =>
    simp only [applyCmd,
      List.getElem?_eq_getElem (show s.cursor_y - 1 < s.lines.length by omega),
      Option.some.injEq] at h
    subst h
    refine ⟨by simp only; omega, ?_⟩
    simp only
    rw [getD_eq_getElem s.lines [] (s.cursor_y - 1) (by omega)]
    omega
  | moveDown =>
    simp only [applyCmd,
      List.getElem?_eq_getElem
        (show min (s.lines.length - 1) (s.cursor_y + 1) < s.lines.length by omega),
      Option.some.injEq] at h
    subst h
    refine ⟨by simp only; omega, ?_⟩
    simp only
    rw [getD_eq_getElem s.lines [] (min (s.lines.length - 1) (s.cursor_y + 1)) (by omega)]
    omega
  | moveLeft =>
    simp only [applyCmd] at h
    split at h
    · rename_i h0
      rw [Option.some.injEq] at h
      subst h
      refine ⟨hy, ?_⟩
      simp only
      rw [getD_eq_getElem _ _ _ hy] at hx ⊢
      omega
    · split at h
      · rename_i h0 h1
        rw [List.getElem?_eq_getElem (show s.cursor_y - 1 < s.lines.length by omega)] at h
        simp only [Option.some.injEq] at h
        subst h
        refine ⟨by simp only; omega, ?_⟩
        simp only
        rw [getD_eq_getElem s.lines [] (s.cursor_y - 1) (by omega)]
      · rw [Option.some.injEq] at h
        subst h
        exact ⟨hy, hx⟩
  | moveRight =>
    simp only [applyCmd, List.getElem?_eq_getElem hy] at h
    split at h
    · rename_i h0
      rw [Option.some.injEq] at h
      subst h
      refine ⟨hy, ?_⟩
      simp only
      rw [getD_eq_getElem _ _ _ hy]
      omega
    · split at h
      · rename_i h0 h1
        rw [Option.some.injEq] at h
        subst h
        refine ⟨by simp only; omega, ?_⟩
        exact Nat.zero_le _
      · rw [Option.some.injEq] at h
        subst h
        exact ⟨hy, hx⟩
  | backspace =>
    simp only [applyCmd, save_undo] at h
    split at h
    · rename_i h0
      rw [List.getElem?_eq_getElem hy] at h
      simp only [Option.some.injEq] at h
      subst h
      refine ⟨by simp only [List.length_set]; omega, ?_⟩
      simp only
      rw [getD_set_self _ _ _ _ (by simpa using hy)]
      rw [getD_eq_getElem _ _ _ hy] at hx
      simp only [List.length_append, List.length_take, List.length_drop]
      omega
    · split at h
      · rename_i h0 h1
        rw [List.getElem?_eq_getElem (show s.cursor_y - 1 < s.lines.length by omega),
          List.getElem?_eq_getElem hy] at h
        simp only [Option.some.injEq] at h
        subst h
        have hlen : (pyPop (s.lines.set (s.cursor_y - 1)
            (s.lines[s.cursor_y - 1] ++ s.lines[s.cursor_y])) s.cursor_y).length =
            s.lines.length - 1 := by
          rw [length_pyPop _ _ (by simpa using hy), List.length_set]
        refine ⟨?_, ?_⟩
        · simp only [hlen]
          omega
        · simp only [hlen]
          have hgd : (pyPop (s.lines.set (s.cursor_y - 1)
              (s.lines[s.cursor_y - 1] ++ s.lines[s.cursor_y])) s.cursor_y).getD
              (s.cursor_y - 1) [] =
              s.lines[s.cursor_y - 1] ++ s.lines[s.cursor_y] := by
            unfold pyPop
            rw [getD_append_lt _ _ _ _
              (by simp only [List.length_take, List.length_set]; omega)]
            rw [getD_take_lt _ _ _ _ (by omega)]
            exact getD_set_self _ _ _ _ (by omega)
          rw [hgd]
          simp only [List.length_append]
          omega
      · rw [Option.some.injEq] at h
        subst h
        exact ⟨hy, hx⟩
  | newline =>
    simp only [applyCmd, save_undo, List.getElem?_eq_getElem hy,
      Option.some.injEq] at h
    subst h
    refine ⟨?_, Nat.zero_le _⟩
    simp only
    rw [length_pyInsertAt _ _ _ (by simp only [List.length_set]; omega)]
    simp only [List.length_set]
    omega
  | tab =>
    simp only [applyCmd, save_undo, List.getElem?_eq_getElem hy,
      Option.some.injEq] at h
    subst h
    refine ⟨by simp only [List.length_set]; omega, ?_⟩
    simp only
    rw [getD_set_self _ _ _ _ (by simpa using hy)]
    rw [getD_eq_getElem _ _ _ hy] at hx
    simp only [List.length_append, List.length_take, List.length_cons,
      List.length_drop]
    omega
  | insertChar c0 =>
    simp only [applyCmd, save_undo, List.getElem?_eq_getElem hy,
      Option.some.injEq] at h
    subst h
    refine ⟨by simp only [List.length_set]; omega, ?_⟩
    simp only
    rw [getD_set_self _ _ _ _ (by simpa using hy)]
    rw [getD_eq_getElem _ _ _ hy] at hx
    simp only [List.length_append, List.length_take, List.length_cons,
      List.length_drop]
    omega
  | cut =>
    have hc2 : 2 ≤ s.lines.length := of_decide_eq_true hc
    simp only [applyCmd, save_undo, List.getElem?_eq_getElem hy,
      Option.some.injEq] at h
    subst h
    have hlen : (pyPop s.lines s.cursor_y).length = s.lines.length - 1 :=
      length_pyPop _ _ hy
    refine ⟨?_, Nat.zero_le _⟩
    simp only [hlen]
    split <;> omega
  | paste => simp [cursorSafe] at hc
  | undo => simp [cursorSafe] at hc
  | redo => simp [cursorSafe] at hc
  | replaceCmd f r => simp [cursorSafe] at hc
  | whereIs term =>
    simp only [applyCmd] at h
    split at h
    · rw [Option.some.injEq] at h
      subst h
      exact ⟨hy, hx⟩
    · rename_i i hf
      rw [Option.some.injEq] at h
      subst h
      have hm := List.mem_of_find?_eq_some hf
      rw [List.mem_range'_1] at hm
      refine ⟨by simp only; omega, ?_⟩
      simp only
      exact pyFindIdx_le _ _
  | gotoLine g =>
    simp only [applyCmd] at h
    split at h
    · rename_i hg
      rw [Option.some.injEq] at h
      subst h
      refine ⟨by simp only; omega, ?_⟩
      simp only
      exact min_le_right _ _
    · rw [Option.some.injEq] at h
      subst h
      exact ⟨hy, hx⟩
  | mouse mx my th =>
    simp only [applyCmd] at h
    split at h
    · rw [if_neg (by omega)] at h
      rw [Option.some.injEq] at h
      subst h
      refine ⟨by simp only; omega, ?_⟩
      simp only
      omega
    · rw [Option.some.injEq] at h
      subst h
      exact ⟨hy, hx⟩

/-- C2 (witness): the amended invariant theorem applied to cut on a
two-line buffer. -/
theorem cursor_invariant_witness :
    Inv ⟨[['b']], 0, 0, 0, ['a'], [[['a'], ['b']]], [], true⟩ :=
  cursor_invariant_safe_cmds Cmd.cut ⟨[['a'], ['b']], 0, 1, 0, [], [], [], false⟩
    ⟨[['b']], 0, 0, 0, ['a'], [[['a'], ['b']]], [], true⟩
    (by decide) (by decide) (by decide)

end AjEditor
